import Mathlib

/-
Verification of the translation-resolution core in `src/I18nProvider.tsx`
(functions `getDicValue`, `plural`, `interpolation`, `objectInterpolation`
and the resolver `t` of `I18nProvider`).

Modelling conventions:
  * JS strings are modelled as `List Char` (named `Str`), so that all string
    operations (splitting on characters, regex-like scanning) are plain
    structural recursion amenable to proof and to kernel evaluation.
  * JS objects used as dictionaries are association lists with first-match
    lookup (JS object keys are unique, so first-match agrees with JS).
  * A dictionary value is either a string leaf or a nested object
    (`DicValue`).  JS `undefined` is `Option.none` at the API boundaries.
  * Numbers appearing in queries are modelled as `Int` (the source only ever
    concatenates them into keys and into interpolated text; float formatting
    is out of scope).
  * The regex `new RegExp(escape(prefix) + "\\s*" + varKey + "\\s*" + escape(suffix), "gm")`
    built by `interpolation` is modelled as a literal matcher
    (prefix, maximal whitespace run, literal key name, maximal whitespace
    run, suffix) scanned left to right without rescanning replacements.
    The source escapes the delimiters but injects the query key UNESCAPED,
    so for keys containing regex metacharacters the real pattern is not
    the literal one (alternation keys match without the opening delimiter,
    quantifier keys match fragments, and a key such as a lone opening
    parenthesis makes the `RegExp` constructor throw).  The model is
    therefore faithful exactly for keys whose characters lie outside
    `regexEscapeSet`; theorems whose range includes interpolation with a
    live query restrict the query keys accordingly (`safeName`), and
    theorems that rely on a match or its absence also keep the maximal
    whitespace munch equivalent to the greedy regex by requiring names
    (and the suffix head) to be non-whitespace.  JS global replace
    advances by one position after an empty match; an empty match requires
    a nullable pattern, which cannot arise when the escaped prefix is
    nonempty and the key is regex-literal, and every theorem about the
    scanner stays in that range.  The whitespace class `isWs` is the full
    JS `\s` set.  JS `$`-escapes in the replacement string are not
    modelled (query values are substituted literally), so statements about
    exact replacement output restrict values to `$`-free strings.
  * The `logger` side channel and React context plumbing are not modelled;
    `t` is modelled as the pure resolution function it computes.
-/

namespace NextTranslate

/-- JS strings as lists of characters. -/
abbrev Str := List Char

/-- Values admissible in a translation query: strings or numbers. -/
inductive QVal where
  | s : Str → QVal
  | n : Int → QVal
deriving DecidableEq

/-- A query object: association list from placeholder name to value,
in iteration order of the JS object keys. -/
abbrev Query := List (Str × QVal)

/-- A dictionary tree value: a string leaf or an object node. -/
inductive DicValue where
  | str : Str → DicValue
  | obj : List (Str × DicValue) → DicValue

/-- First-match association-list lookup (JS property access on objects). -/
def alist {α : Type} : List (Str × α) → Str → Option α
  | [], _ => none
  | (k, v) :: rest, key => if k = key then some v else alist rest key

/-- JS truthiness of a dictionary value: the empty string is falsy,
every other string and every object is truthy. -/
def isTruthy : DicValue → Bool
  | .str s => !s.isEmpty
  | .obj _ => true

/-- One step of the navigation fold in `getDicValue`:
`(val, key) => val[key] || {}`.  Property access on a string leaf yields
`undefined` (string exotic properties such as `length` are out of scope),
and any falsy result is replaced by the empty object. -/
def getAttr (val : DicValue) (k : Str) : DicValue :=
  match val with
  | .str _ => .obj []
  | .obj es =>
    match alist es k with
    | some v => if isTruthy v then v else .obj []
    | none => .obj []

/-- `String.prototype.split` on a single separator character
(total, returns `[""]` on the empty string, keeps empty fields). -/
def splitOnChar (sep : Char) : Str → List Str
  | [] => [[]]
  | x :: xs =>
    if x = sep then [] :: splitOnChar sep xs
    else
      match splitOnChar sep xs with
      | s :: rest => (x :: s) :: rest
      | [] => [[x]]

/-- The navigation fold of `getDicValue`:
`key.split('.').reduce((val, key) => val[key] || {}, dic)`. -/
def navigate (dic : DicValue) (key : Str) : DicValue :=
  (splitOnChar '.' key).foldl getAttr dic

/-- `getDicValue(dic, key, options)`: navigate, then accept the terminal
value only if it is a string, or an object while `options.returnObjects`
is set.  `key` is `Option Str` because the caller may pass JS `undefined`,
which selects the default parameter `''`.  `ro` is
`options.returnObjects` (falsy when absent). -/
def getDicValue (dic : DicValue) (key : Option Str) (ro : Bool) : Option DicValue :=
  match navigate dic (key.getD []) with
  | .str s => some (.str s)
  | .obj es => if ro then some (.obj es) else none

/-- Splitting helper for `k.split(/:(.+)/)`: find the first `':'` that has
at least one character after it; return the parts before and after it. -/
def splitKeyAux : Str → Option (Str × Str)
  | [] => none
  | c :: rest =>
    if c = ':' ∧ rest ≠ [] then some ([], rest)
    else
      match splitKeyAux rest with
      | some (p, q) => some (c :: p, q)
      | none => none

/-- `const [namespace, i18nKey] = k.split(/:(.+)/)`: namespace is the part
before the first `':'` that is followed by at least one character, and
`i18nKey` is everything after that `':'` (or JS `undefined` when there is
no such `':'`). -/
def splitKey (k : Str) : Str × Option Str :=
  match splitKeyAux k with
  | some (ns, leaf) => (ns, some leaf)
  | none => (k, none)

/-- Decimal rendering of an `Int`, as JS template-literal interpolation of
a number produces for integral values. -/
def intToStr (i : Int) : Str := (toString i).toList

/-- JS template-literal interpolation of a possibly-`undefined` string. -/
def jsStr (k : Option Str) : Str := k.getD ("undefined".toList)

/-- `query.count` when it is a number (`typeof query.count === 'number'`). -/
def queryCount (q : Query) : Option Int :=
  match alist q ("count".toList) with
  | some (QVal.n c) => some c
  | _ => none

/-- `plural(pluralRules, dic, key, query)`: pick the exact-count key
`key_<count>` if the navigator finds a value there, else the category key
`key_<category>` when `count > 1` and the navigator finds a value there,
else the key unchanged.  Both probes call `getDicValue` without options,
so `returnObjects` is false in them.  `rules` models
`Intl.PluralRules(lang).select`. -/
def plural (rules : Int → Str) (dic : DicValue) (key : Option Str)
    (query : Option Query) : Option Str :=
  match query with
  | none => key
  | some q =>
    match queryCount q with
    | none => key
    | some c =>
      let numKey := jsStr key ++ '_' :: intToStr c
      if (getDicValue dic (some numKey) false).isSome then some numKey
      else
        let pluralKey := jsStr key ++ '_' :: rules c
        if c > 1 && (getDicValue dic (some pluralKey) false).isSome then some pluralKey
        else key

/-- The characters matched by the JS regex class `\s`: ECMAScript
WhiteSpace and LineTerminator code points. -/
def jsWsChars : Str :=
  [' ', '\t', '\n', '\x0b', '\x0c', '\r', '\u00A0', '\u1680',
   '\u2000', '\u2001', '\u2002', '\u2003', '\u2004', '\u2005',
   '\u2006', '\u2007', '\u2008', '\u2009', '\u200A',
   '\u2028', '\u2029', '\u202F', '\u205F', '\u3000', '\uFEFF']

/-- Whether a character is matched by the JS regex class `\s`. -/
def isWs (c : Char) : Bool := jsWsChars.contains c

/-- The characters escaped by `escapeRegex` in the source — exactly the
regex metacharacters.  The source does NOT escape the query key before
splicing it into the pattern, so the literal matcher below is faithful
only for keys avoiding these characters. -/
def regexEscapeSet : Str :=
  ['-', '/', '\\', '^', '$', '*', '+', '?', '.', '(', ')', '|', '[', ']',
   '{', '}']

/-- A query key name on which the source's unescaped-key regex is the
literal pattern and the maximal whitespace munch agrees with the greedy
regex: no regex metacharacters and no whitespace. -/
def safeName (s : Str) : Bool :=
  s.all fun c => !(regexEscapeSet.contains c) && !(isWs c)

/-- Match a literal pattern at the head of the input; on success return the
rest of the input. -/
def dropPre : Str → Str → Option Str
  | [], cs => some cs
  | _ :: _, [] => none
  | p :: ps, c :: cs => if c = p then dropPre ps cs else none

/-- Try to match the regex `escape(pre) ++ "\\s*" ++ name ++ "\\s*" ++ escape(suf)`
at the head of `cs`; on success return the input after the match.
The source splices `name` into the regex UNESCAPED; this matcher treats
it as a literal, so it is faithful exactly for names avoiding
`regexEscapeSet` (theorems restrict their ranges accordingly via
`safeName`).  Whitespace is matched maximally, which agrees with the
greedy regex whenever the name and the suffix do not start with a
whitespace character. -/
def matchPat (pre name suf : Str) (cs : Str) : Option Str :=
  (dropPre pre cs).bind fun cs1 =>
    (dropPre name (cs1.dropWhile isWs)).bind fun cs3 =>
      dropPre suf (cs3.dropWhile isWs)

/-- Fuel-driven scanner implementing `text.replace(regex, repl)` with a
global regex: scan left to right, replace each match and continue after
it without rescanning the replacement.  `matchPat` with a nonempty
delimiter `pre` always consumes at least one character, so fuel equal to
the input length never runs out (`replaceAllFuel_congr`); the fuel is
only there to make the recursion structural.  JS advances one position
after an EMPTY match (possible only for a nullable pattern, i.e. when
the escaped prefix is empty or the spliced key makes the regex
nullable); that behaviour is not modelled, and theorems about the
scanner restrict their ranges to nonempty prefixes and regex-literal
keys, where matches are never empty. -/
def replaceAllFuel (pre name suf repl : Str) : Nat → Str → Str
  | 0, cs => cs
  | _ + 1, [] => []
  | fuel + 1, c :: rest =>
    match matchPat pre name suf (c :: rest) with
    | some rem => repl ++ replaceAllFuel pre name suf repl fuel rem
    | none => c :: replaceAllFuel pre name suf repl fuel rest

/-- `text.replace(regex, repl)` with the global placeholder regex. -/
def replaceAll (pre name suf repl cs : Str) : Str :=
  replaceAllFuel pre name suf repl cs.length cs

/-- Configuration visible to the interpolator: the optional
`interpolation: { prefix, suffix }` pair.  The `logger` configuration
entry is a side channel and is not part of the pure model. -/
structure I18nConfig where
  interp : Option (Str × Str)

/-- The interpolation delimiters, defaulted as in
`const { interpolation: { prefix, suffix } = { prefix: '\x7b\x7b', suffix: '\x7d\x7d' } } = config`. -/
def cfgPre (cfg : I18nConfig) : Str := (cfg.interp.getD (['{', '{'], ['}', '}'])).1

def cfgSuf (cfg : I18nConfig) : Str := (cfg.interp.getD (['{', '{'], ['}', '}'])).2

/-- The default configuration (no explicit interpolation delimiters). -/
def dfltConfig : I18nConfig := ⟨none⟩

/-- JS template-literal stringification of a query value. -/
def QVal.toStr : QVal → Str
  | .s v => v
  | .n i => intToStr i

/-- `interpolation({ text, query, config })`: if `text` is `undefined` or
empty return `''`; if `query` is `null`/`undefined` return `text`;
otherwise fold over the query keys in iteration order, replacing every
occurrence of the placeholder pattern of each key in the evolving text. -/
def interpolation (cfg : I18nConfig) (text : Option Str) (query : Option Query) : Str :=
  if (text.getD []).isEmpty then []
  else
    match query with
    | none => text.getD []
    | some q =>
      q.foldl (fun all kv => replaceAll (cfgPre cfg) kv.1 (cfgSuf cfg) kv.2.toStr all)
        (text.getD [])

mutual
/-- Recursive part of `objectInterpolation` on a single value, for a
nonempty query: interpolate string leaves, recurse into object nodes. -/
def interpDicValue (cfg : I18nConfig) (query : Query) : DicValue → DicValue
  | .str s => .str (interpolation cfg (some s) (some query))
  | .obj es => .obj (interpEntries cfg query es)

/-- Recursive part of `objectInterpolation` on the entry list. -/
def interpEntries (cfg : I18nConfig) (query : Query) :
    List (Str × DicValue) → List (Str × DicValue)
  | [] => []
  | (k, v) :: rest => (k, interpDicValue cfg query v) :: interpEntries cfg query rest
end

/-- `objectInterpolation({ obj, query, config })`: no-op when the query is
absent or has no keys, otherwise interpolate every string leaf of the
object in place (modelled functionally). -/
def objectInterpolation (cfg : I18nConfig) (es : List (Str × DicValue))
    (query : Option Query) : List (Str × DicValue) :=
  match query with
  | none => es
  | some [] => es
  | some (kv :: q) => interpEntries cfg (kv :: q) es

/-- The result of a call to `t`: a string, or an object (when an object
leaf is returned under `returnObjects`). -/
inductive TResult where
  | str : Str → TResult
  | obj : List (Str × DicValue) → TResult

/-- The options argument of `t`: `{ returnObjects?, fallback? }` where
`fallback` may be a single key or a list of keys. -/
structure TOptions where
  returnObjects : Bool
  fallback : Option (Sum Str (List Str))

/-- `options?.returnObjects`, falsy when the options or the field are
absent. -/
def roOf (options : Option TOptions) : Bool :=
  (options.map TOptions.returnObjects).getD false

/-- Normalisation of the fallback option performed by `t`:
`typeof fallback === 'string' ? [fallback] : fallback || []`. -/
def normFallback : Option (Sum Str (List Str)) → List Str
  | some (.inl s) => [s]
  | some (.inr l) => l
  | none => []

/-- The normalised fallback chain of an optional options object. -/
def optFallbacks : Option TOptions → List Str
  | none => []
  | some o => normFallback o.fallback

/-- The resolution context closed over by `t` inside `I18nProvider`:
the merged namespace registry `allNamespaces`, the plural-rule provider
`Intl.PluralRules(lang)` and the merged configuration. -/
structure Ctx where
  namespaces : List (Str × DicValue)
  pluralRules : Int → Str
  config : I18nConfig

/-- `allNamespaces[namespace] || {}`. -/
def dicFor (ctx : Ctx) (ns : Str) : DicValue :=
  match alist ctx.namespaces ns with
  | some d => d
  | none => .obj []

/-- The value computed by `t` before classification: split the key, pick
the namespace dictionary, apply plural key selection, then look the key
up with the caller's `returnObjects`. -/
def valueAt (ctx : Ctx) (key : Str) (query : Option Query) (ro : Bool) :
    Option DicValue :=
  let sp := splitKey key
  let dic := dicFor ctx sp.1
  getDicValue dic (plural ctx.pluralRules dic sp.2 query) ro

/-- The `empty` classification in `t`:
`typeof value === 'undefined' || (typeof value === 'object' && !Object.keys(value).length)`. -/
def isEmptyVal : Option DicValue → Bool
  | none => true
  | some (.obj []) => true
  | some _ => false

/-- Whether resolution of `key` (before fallbacks) classifies as empty. -/
def emptyAt (ctx : Ctx) (key : Str) (query : Option Query) (ro : Bool) : Bool :=
  isEmptyVal (valueAt ctx key query ro)

/-- The tail of `t` after the fallback step: return interpolated objects
as objects, and otherwise `interpolation(...) || k` — the interpolated
string, or the composite key `k` verbatim when that string is empty. -/
def finishT (cfg : I18nConfig) (k : Str) (value : Option DicValue)
    (query : Option Query) : TResult :=
  match value with
  | some (.obj es) => .obj (objectInterpolation cfg es query)
  | some (.str s) =>
    let r := interpolation cfg (some s) query
    if r.isEmpty then .str k else .str r
  | none =>
    let r := interpolation cfg none query
    if r.isEmpty then .str k else .str r

/-- The recursive worker of `t`, structurally recursive on the normalised
fallback chain.  The source recursion
`t(firstFallback, query, { ...options, fallback: restFallbacks })`
preserves `returnObjects` and replaces the fallback option by the rest of
the chain, which is exactly this recursion; `query` and `returnObjects`
are invariant across it. -/
def tGo (ctx : Ctx) (query : Option Query) (ro : Bool) :
    Str → List Str → TResult
  | key, fallbacks =>
    let value := valueAt ctx key query ro
    match fallbacks with
    | first :: rest =>
      if isEmptyVal value then tGo ctx query ro first rest
      else finishT ctx.config key value query
    | [] => finishT ctx.config key value query

/-- `t(key, query, options)` of `I18nProvider`: the public resolver. -/
def t (ctx : Ctx) (key : Str) (query : Option Query)
    (options : Option TOptions) : TResult :=
  tGo ctx query (roOf options) key (optFallbacks options)

/-- Depth-limited version of the resolver: `none` when the recursion
depth budget is exhausted.  Used to state that depth `fallback chain
length + 1` always suffices. -/
def tFuel (ctx : Ctx) (query : Option Query) (ro : Bool) :
    Nat → Str → List Str → Option TResult
  | 0, _, _ => none
  | fuel + 1, key, fallbacks =>
    let value := valueAt ctx key query ro
    match fallbacks with
    | first :: rest =>
      if isEmptyVal value then tFuel ctx query ro fuel first rest
      else some (finishT ctx.config key value query)
    | [] => some (finishT ctx.config key value query)

/-! Concrete fixtures used to instantiate the claims. -/

/-- English-like plural rules as produced by `Intl.PluralRules('en')`:
category `one` for count 1, `other` otherwise. -/
def enRules : Int → Str := fun c => if c = 1 then "one".toList else "other".toList

/-- A context whose namespace registry is empty. -/
def emptyCtx : Ctx := ⟨[], enRules, dfltConfig⟩

/-- A context whose only namespace holds one resolvable key `y`. -/
def fallbackCtx : Ctx :=
  ⟨[("b".toList, .obj [("y".toList, .str ("B".toList))])], enRules, dfltConfig⟩

/-- A context whose namespace `ns` maps key `a` to the empty string. -/
def emptyLeafCtx : Ctx :=
  ⟨[("ns".toList, .obj [("a".toList, .str [])])], enRules, dfltConfig⟩

/-- A context where the exact-count key `base_2` holds the empty string
while the category key `base_other` holds a non-empty string. -/
def exactEmptyCtx : Ctx :=
  ⟨[("ns".toList, .obj
      [("base_2".toList, .str []),
       ("base_other".toList, .str ("others".toList))])], enRules, dfltConfig⟩

/-- A context where the category key `base_other` holds the empty string
while the base key holds a non-empty string. -/
def catEmptyCtx : Ctx :=
  ⟨[("ns".toList, .obj
      [("base_other".toList, .str []),
       ("base".toList, .str ("hello".toList))])], enRules, dfltConfig⟩

/-- A context where the exact-count key `base_2` holds a value containing
the `count` placeholder. -/
def exactPhCtx : Ctx :=
  ⟨[("ns".toList, .obj
      [("base_2".toList, .str
        ['{', '{', 'c', 'o', 'u', 'n', 't', '}', '}', ' ',
         'a', 'p', 'p', 'l', 'e', 's'])])], enRules, dfltConfig⟩

/-- A context where the category key `base_other` holds a value
containing the `count` placeholder. -/
def catPhCtx : Ctx :=
  ⟨[("ns".toList, .obj
      [("base_other".toList, .str
        ['{', '{', 'c', 'o', 'u', 'n', 't', '}', '}', ' ',
         'a', 'p', 'p', 'l', 'e', 's'])])], enRules, dfltConfig⟩

/-- A registry for the amended-C2 witness. -/
def wReg2 : List (Str × DicValue) :=
  [("ns".toList, .obj [("a".toList, .str ("A".toList))])]

/-- A registry for the amended-C3 witness. -/
def wReg3 : List (Str × DicValue) :=
  [("ns".toList, .obj
    [("base_2".toList, .str ("two".toList)),
     ("base_other".toList, .str ("many".toList))])]

/-- A registry for the amended-C4 witness. -/
def wReg4 : List (Str × DicValue) :=
  [("ns".toList, .obj [("base_other".toList, .str ("many".toList))])]

/-- A registry for the C7 witness. -/
def wReg7 : List (Str × DicValue) :=
  [("ns".toList, .obj [("a".toList, .obj [("b".toList, .str ("B".toList))])])]

/-- A registry for the C9 witness. -/
def wReg9 : List (Str × DicValue) :=
  [("ns".toList, .obj
    [("base_2".toList, .obj [("x".toList, .str ("X".toList))]),
     ("base_other".toList, .obj [])])]

/-- Whether `pat` occurs as a contiguous substring of `cs`. -/
def containsSub (cs pat : Str) : Bool :=
  match cs with
  | [] => pat.isEmpty
  | _ :: rest => (dropPre pat cs).isSome || containsSub rest pat

/-- Whether the placeholder pattern of `name` matches at some position of
`cs`.  (A nonempty `pre` can never match at the end of the string, so
positions are the nonempty suffixes.) -/
def hasMatch (pre name suf : Str) : Str → Bool
  | [] => false
  | c :: rest => (matchPat pre name suf (c :: rest)).isSome || hasMatch pre name suf rest

/-- A text decomposed into literal segments separated by full placeholder
occurrences `pre ++ ws ++ name ++ ws ++ suf`: each part is
`(segment, leading whitespace, trailing whitespace)`, followed by a final
literal segment. -/
def buildText (pre name suf : Str) : List (Str × Str × Str) → Str → Str
  | [], last => last
  | (s, w1, w2) :: ps, last =>
    s ++ pre ++ w1 ++ name ++ w2 ++ suf ++ buildText pre name suf ps last

/-- The same decomposition with every placeholder occurrence replaced. -/
def buildOut (repl : Str) : List (Str × Str × Str) → Str → Str
  | [], last => last
  | (s, _, _) :: ps, last => s ++ repl ++ buildOut repl ps last

/-! Basic lemmas about splitting and navigation. -/

theorem splitOnChar_no_sep {sep : Char} : ∀ {k : Str}, sep ∉ k →
    splitOnChar sep k = [k]
  | [], _ => rfl
  | x :: xs, h => by
    have hx : x ≠ sep := fun hxe => h (hxe ▸ List.mem_cons_self x xs)
    have hxs : sep ∉ xs := fun hm => h (List.mem_cons_of_mem x hm)
    simp only [splitOnChar, if_neg hx, splitOnChar_no_sep hxs]

theorem navigate_single {k : Str} (h : '.' ∉ k) (dic : DicValue) :
    navigate dic k = getAttr dic k := by
  simp only [navigate, splitOnChar_no_sep h, List.foldl_cons, List.foldl_nil]

theorem splitKeyAux_append {ns leaf : Str} (hns : ':' ∉ ns) (hleaf : leaf ≠ []) :
    splitKeyAux (ns ++ ':' :: leaf) = some (ns, leaf) := by
  induction ns with
  | nil => simp [splitKeyAux, hleaf]
  | cons c cs ih =>
    have hc : c ≠ ':' := fun hce => hns (hce ▸ List.mem_cons_self c cs)
    have hcs : ':' ∉ cs := fun hm => hns (List.mem_cons_of_mem c hm)
    simp [splitKeyAux, hc, ih hcs]

theorem splitKey_append {ns leaf : Str} (hns : ':' ∉ ns) (hleaf : leaf ≠ []) :
    splitKey (ns ++ ':' :: leaf) = (ns, some leaf) := by
  simp [splitKey, splitKeyAux_append hns hleaf]

/-! Lemmas about `getDicValue` on single-segment keys. -/

theorem getDicValue_str {es : List (Str × DicValue)} {k v : Str} (ro : Bool)
    (hlk : alist es k = some (.str v)) (hv : v ≠ []) (hk : '.' ∉ k) :
    getDicValue (.obj es) (some k) ro = some (.str v) := by
  have hT : isTruthy (.str v) = true := by
    simp [isTruthy, List.isEmpty_iff, hv]
  simp [getDicValue, navigate_single hk, getAttr, hlk, hT]

theorem navigate_empty_str {es : List (Str × DicValue)} {k : Str}
    (hlk : alist es k = some (.str [])) (hk : '.' ∉ k) :
    navigate (.obj es) k = .obj [] := by
  simp [navigate_single hk, getAttr, hlk, isTruthy]

theorem getDicValue_empty_str {es : List (Str × DicValue)} {k : Str} (ro : Bool)
    (hlk : alist es k = some (.str [])) (hk : '.' ∉ k) :
    getDicValue (.obj es) (some k) ro = if ro then some (.obj []) else none := by
  simp [getDicValue, navigate_empty_str hlk hk]

theorem getDicValue_obj {es : List (Str × DicValue)} {k : Str}
    {o : List (Str × DicValue)} (ro : Bool)
    (hlk : alist es k = some (.obj o)) (hk : '.' ∉ k) :
    getDicValue (.obj es) (some k) ro = if ro then some (.obj o) else none := by
  simp [getDicValue, navigate_single hk, getAttr, hlk, isTruthy]

theorem getDicValue_absent {es : List (Str × DicValue)} {k : Str} (ro : Bool)
    (hlk : alist es k = none) (hk : '.' ∉ k) :
    getDicValue (.obj es) (some k) ro = if ro then some (.obj []) else none := by
  simp [getDicValue, navigate_single hk, getAttr, hlk]

/-- With `returnObjects` false, a lookup result classified empty is
exactly an absent result: `getDicValue` with `ro = false` only ever
returns string values, and strings are never classified empty. -/
theorem empty_ro_false {dic : DicValue} {k : Option Str}
    (h : isEmptyVal (getDicValue dic k false) = true) :
    getDicValue dic k false = none := by
  revert h
  unfold getDicValue
  cases navigate dic (k.getD []) <;> simp [isEmptyVal]

/-! Lemmas about `plural`. -/

theorem plural_none_query (rules : Int → Str) (dic : DicValue) (key : Option Str) :
    plural rules dic key none = key := rfl

theorem plural_no_count {q : Query} (rules : Int → Str) (dic : DicValue)
    (key : Option Str) (h : queryCount q = none) :
    plural rules dic key (some q) = key := by
  simp [plural, h]

/-- `plural` selects the exact-count key as soon as its probe (which runs
with `returnObjects` false) finds a value, regardless of any category key. -/
theorem plural_exact {rules : Int → Str} {dic : DicValue} {key : Option Str}
    {q : Query} {c : Int} (hc : queryCount q = some c)
    (hp : (getDicValue dic (some (jsStr key ++ '_' :: intToStr c)) false).isSome = true) :
    plural rules dic key (some q) = some (jsStr key ++ '_' :: intToStr c) := by
  simp [plural, hc, hp]

/-- `plural` selects the category key when the exact probe fails, the
count exceeds one, and the category probe finds a value. -/
theorem plural_category {rules : Int → Str} {dic : DicValue} {key : Option Str}
    {q : Query} {c : Int} (hc : queryCount q = some c)
    (hnum : getDicValue dic (some (jsStr key ++ '_' :: intToStr c)) false = none)
    (hgt : c > 1)
    (hp : (getDicValue dic (some (jsStr key ++ '_' :: rules c)) false).isSome = true) :
    plural rules dic key (some q) = some (jsStr key ++ '_' :: rules c) := by
  simp [plural, hc, hnum, hgt, hp]

/-- `plural` leaves the key unchanged when both probes fail (in
particular whenever `count ≤ 1` and the exact probe fails). -/
theorem plural_base {rules : Int → Str} {dic : DicValue} {key : Option Str}
    {q : Query} {c : Int} (hc : queryCount q = some c)
    (hnum : getDicValue dic (some (jsStr key ++ '_' :: intToStr c)) false = none)
    (hcat : c ≤ 1 ∨ getDicValue dic (some (jsStr key ++ '_' :: rules c)) false = none) :
    plural rules dic key (some q) = key := by
  rcases hcat with hle | hfail
  · have : ¬(c > 1) := not_lt.mpr hle
    simp [plural, hc, hnum, this]
  · simp [plural, hc, hnum, hfail]

/-! Lemmas about the placeholder matcher and scanner. -/

theorem dropPre_length : ∀ {p cs r : Str}, dropPre p cs = some r →
    r.length + p.length = cs.length
  | [], _, _, h => by
    simp only [dropPre, Option.some.injEq] at h
    simp [h]
  | _ :: _, [], _, h => by simp [dropPre] at h
  | p :: ps, c :: cs, r, h => by
    by_cases hc : c = p
    · simp only [dropPre, if_pos hc] at h
      have := dropPre_length h
      simp only [List.length_cons]
      omega
    · simp [dropPre, hc] at h

theorem lenDropWhile_le (f : Char → Bool) : ∀ cs : Str,
    (cs.dropWhile f).length ≤ cs.length
  | [] => Nat.le_refl _
  | c :: cs => by
    by_cases h : f c
    · simp only [List.dropWhile_cons, h, if_pos]
      exact Nat.le_succ_of_le (lenDropWhile_le f cs)
    · simp [List.dropWhile_cons, h]

theorem matchPat_length {pre name suf cs rem : Str} (hpre : pre ≠ [])
    (h : matchPat pre name suf cs = some rem) : rem.length < cs.length := by
  unfold matchPat at h
  cases h1 : dropPre pre cs with
  | none => simp [h1] at h
  | some cs1 =>
    simp only [h1, Option.some_bind] at h
    cases h2 : dropPre name (cs1.dropWhile isWs) with
    | none => simp [h2] at h
    | some cs3 =>
      simp only [h2, Option.some_bind] at h
      have l1 := dropPre_length h1
      have l2 := dropPre_length h2
      have l3 := dropPre_length h
      have d1 := lenDropWhile_le isWs cs1
      have d2 := lenDropWhile_le isWs cs3
      have hplen : 0 < pre.length := List.length_pos.mpr hpre
      omega

theorem replaceAllFuel_congr {pre name suf repl : Str} (hpre : pre ≠ []) :
    ∀ (cs : Str) (f1 f2 : Nat), cs.length ≤ f1 → cs.length ≤ f2 →
      replaceAllFuel pre name suf repl f1 cs = replaceAllFuel pre name suf repl f2 cs
  | [], f1, f2, _, _ => by cases f1 <;> cases f2 <;> rfl
  | c :: rest, f1, f2, h1, h2 => by
    obtain ⟨f1', rfl⟩ : ∃ k, f1 = k + 1 := ⟨f1 - 1, by simp at h1; omega⟩
    obtain ⟨f2', rfl⟩ : ∃ k, f2 = k + 1 := ⟨f2 - 1, by simp at h2; omega⟩
    cases hm : matchPat pre name suf (c :: rest) with
    | some rem =>
      have hlt := matchPat_length hpre hm
      simp only [List.length_cons] at h1 h2 hlt
      simp only [replaceAllFuel, hm]
      rw [replaceAllFuel_congr hpre rem f1' f2' (by omega) (by omega)]
    | none =>
      simp only [List.length_cons] at h1 h2
      simp only [replaceAllFuel, hm]
      rw [replaceAllFuel_congr hpre rest f1' f2' (by omega) (by omega)]
termination_by cs => cs.length

theorem replaceAll_nil (pre name suf repl : Str) :
    replaceAll pre name suf repl [] = [] := rfl

theorem replaceAll_cons_match {pre name suf rem : Str} {c : Char} {rest : Str}
    (hpre : pre ≠ []) (hm : matchPat pre name suf (c :: rest) = some rem)
    (repl : Str) : replaceAll pre name suf repl (c :: rest) =
      repl ++ replaceAll pre name suf repl rem := by
  have hlt := matchPat_length hpre hm
  simp only [List.length_cons] at hlt
  unfold replaceAll
  simp only [List.length_cons, replaceAllFuel, hm]
  rw [replaceAllFuel_congr hpre rem rest.length rem.length (by omega) (Nat.le_refl _)]

theorem replaceAll_cons_nomatch {pre name suf : Str} {c : Char} {rest : Str}
    (hm : matchPat pre name suf (c :: rest) = none) (repl : Str) :
    replaceAll pre name suf repl (c :: rest) =
      c :: replaceAll pre name suf repl rest := by
  unfold replaceAll
  simp only [List.length_cons, replaceAllFuel, hm]

theorem matchPat_head_ne {p : Char} {ps name suf : Str} {c : Char} {cs : Str}
    (h : c ≠ p) : matchPat (p :: ps) name suf (c :: cs) = none := by
  simp [matchPat, dropPre, h]

/-- No match can start inside a segment free of the first delimiter
character, so the scanner copies the segment verbatim. -/
theorem replaceAll_seg (p : Char) (ps name suf repl : Str) :
    ∀ {s : Str} (rest : Str), (∀ c ∈ s, c ≠ p) →
    replaceAll (p :: ps) name suf repl (s ++ rest) =
      s ++ replaceAll (p :: ps) name suf repl rest
  | [], rest, _ => by simp
  | c :: s', rest, h => by
    have hc : c ≠ p := h c (List.mem_cons_self c s')
    have hs : ∀ x ∈ s', x ≠ p := fun x hx => h x (List.mem_cons_of_mem c hx)
    rw [List.cons_append, replaceAll_cons_nomatch (matchPat_head_ne hc),
      replaceAll_seg p ps name suf repl rest hs, List.cons_append]

theorem dropPre_self_append : ∀ (p r : Str), dropPre p (p ++ r) = some r
  | [], _ => rfl
  | c :: p, r => by simp [dropPre, dropPre_self_append p r]

theorem dropWhile_ws_append {w : Str} {a : Char} {r : Str}
    (hw : ∀ c ∈ w, isWs c = true) (ha : isWs a = false) :
    (w ++ a :: r).dropWhile isWs = a :: r := by
  induction w with
  | nil => simp [List.dropWhile_cons, ha]
  | cons c w ih =>
    have hc : isWs c = true := hw c (List.mem_cons_self c w)
    have hw' : ∀ x ∈ w, isWs x = true := fun x hx => hw x (List.mem_cons_of_mem c hx)
    simp [List.dropWhile_cons, hc, ih hw']

/-- A full placeholder occurrence at the head of the input matches, and
the match consumes exactly the occurrence. -/
theorem matchPat_build (pre suf rest : Str) {name w1 w2 : Str}
    (hw1 : ∀ c ∈ w1, isWs c = true) (hw2 : ∀ c ∈ w2, isWs c = true)
    (hn : name ≠ []) (hnw : ∀ c ∈ name, isWs c = false)
    (hs : suf ≠ []) (hsw : ∀ c ∈ suf, isWs c = false) :
    matchPat pre name suf (pre ++ w1 ++ name ++ w2 ++ suf ++ rest) = some rest := by
  obtain ⟨n, name', rfl⟩ : ∃ a l, name = a :: l := by
    cases name with
    | nil => exact absurd rfl hn
    | cons a l => exact ⟨a, l, rfl⟩
  obtain ⟨sc, suf', rfl⟩ : ∃ a l, suf = a :: l := by
    cases suf with
    | nil => exact absurd rfl hs
    | cons a l => exact ⟨a, l, rfl⟩
  have hnh : isWs n = false := hnw n (List.mem_cons_self n name')
  have hsh : isWs sc = false := hsw sc (List.mem_cons_self sc suf')
  unfold matchPat
  rw [show pre ++ w1 ++ (n :: name') ++ w2 ++ (sc :: suf') ++ rest =
      pre ++ (w1 ++ (n :: (name' ++ (w2 ++ (sc :: (suf' ++ rest)))))) by simp,
    dropPre_self_append, Option.some_bind, dropWhile_ws_append hw1 hnh,
    show n :: (name' ++ (w2 ++ (sc :: (suf' ++ rest)))) =
      (n :: name') ++ (w2 ++ (sc :: (suf' ++ rest))) from rfl,
    dropPre_self_append, Option.some_bind, dropWhile_ws_append hw2 hsh,
    show sc :: (suf' ++ rest) = (sc :: suf') ++ rest from rfl,
    dropPre_self_append]

/-- If no position of `cs` matches the pattern, the scanner is the
identity. -/
theorem replaceAll_of_no_match {pre name suf repl : Str} :
    ∀ {cs : Str}, hasMatch pre name suf cs = false →
      replaceAll pre name suf repl cs = cs
  | [], _ => rfl
  | c :: rest, h => by
    simp only [hasMatch, Bool.or_eq_false_iff] at h
    obtain ⟨h1, h2⟩ := h
    have h1' : matchPat pre name suf (c :: rest) = none := by
      cases hmm : matchPat pre name suf (c :: rest) with
      | none => rfl
      | some r => rw [hmm] at h1; simp at h1
    rw [replaceAll_cons_nomatch h1' repl, replaceAll_of_no_match h2]

theorem hasMatch_of_no_head {p : Char} {ps name suf : Str} :
    ∀ {cs : Str}, (∀ c ∈ cs, c ≠ p) → hasMatch (p :: ps) name suf cs = false
  | [], _ => rfl
  | c :: rest, h => by
    have hc : c ≠ p := h c (List.mem_cons_self c rest)
    have hrest : ∀ x ∈ rest, x ≠ p := fun x hx => h x (List.mem_cons_of_mem c hx)
    simp [hasMatch, matchPat_head_ne hc, hasMatch_of_no_head hrest]

/-- If the delimiter `pre` occurs nowhere in `cs` as a substring, no
placeholder pattern (for any name) matches anywhere in `cs`. -/
theorem hasMatch_of_no_sub {pre name suf : Str} :
    ∀ {cs : Str}, containsSub cs pre = false → hasMatch pre name suf cs = false
  | [], _ => rfl
  | c :: rest, h => by
    simp only [containsSub, Bool.or_eq_false_iff] at h
    obtain ⟨h1, h2⟩ := h
    have hm : matchPat pre name suf (c :: rest) = none := by
      unfold matchPat
      cases hd : dropPre pre (c :: rest) with
      | none => rfl
      | some _ => rw [hd] at h1; simp at h1
    simp [hasMatch, hm, hasMatch_of_no_sub h2]

/-! Lemmas about `interpolation`. -/

theorem interpolation_none_text (cfg : I18nConfig) (q : Option Query) :
    interpolation cfg none q = [] := rfl

theorem interpolation_no_query {cfg : I18nConfig} (v : Str) :
    interpolation cfg (some v) none = v := by
  cases v <;> rfl

theorem interp_fold_nil (cfg : I18nConfig) : ∀ q : Query,
    q.foldl (fun all kv =>
      replaceAll (cfgPre cfg) kv.1 (cfgSuf cfg) kv.2.toStr all) [] = []
  | [] => rfl
  | kv :: rest => by
    simp only [List.foldl_cons, replaceAll_nil]
    exact interp_fold_nil cfg rest

/-- The interpolation fold processes query keys sequentially: the effect
of a query `(k, v) :: rest` on a text is the effect of `rest` on the text
already rewritten by `(k, v)`. -/
theorem interpolation_step (cfg : I18nConfig) (text : Str) (kv : Str × QVal)
    (rest : Query) :
    interpolation cfg (some text) (some (kv :: rest)) =
      interpolation cfg (some (interpolation cfg (some text) (some [kv])))
        (some rest) := by
  cases text with
  | nil => rfl
  | cons c cs =>
    simp only [interpolation, Option.getD_some, List.isEmpty_cons, List.foldl_cons,
      List.foldl_nil, if_neg Bool.false_ne_true]
    cases hrep : replaceAll (cfgPre cfg) kv.1 (cfgSuf cfg) kv.2.toStr (c :: cs) with
    | nil => simp [interp_fold_nil cfg rest]
    | cons r rs => simp

theorem interp_fold_verbatim (cfg : I18nConfig) : ∀ (q : Query) (cs : Str),
    (∀ kv ∈ q, hasMatch (cfgPre cfg) kv.1 (cfgSuf cfg) cs = false) →
    q.foldl (fun all kv =>
      replaceAll (cfgPre cfg) kv.1 (cfgSuf cfg) kv.2.toStr all) cs = cs
  | [], _, _ => rfl
  | kv :: rest, cs, h => by
    simp only [List.foldl_cons,
      replaceAll_of_no_match (h kv (List.mem_cons_self kv rest))]
    exact interp_fold_verbatim cfg rest cs
      (fun x hx => h x (List.mem_cons_of_mem kv hx))

/-- Interpolation leaves a text verbatim when no query key's pattern
matches anywhere in it (in particular, placeholders whose names are
absent from the query are never interpreted). -/
theorem interp_verbatim {cfg : I18nConfig} {q : Query} {cs : Str}
    (h : ∀ kv ∈ q, hasMatch (cfgPre cfg) kv.1 (cfgSuf cfg) cs = false) :
    interpolation cfg (some cs) (some q) = cs := by
  cases cs with
  | nil => rfl
  | cons c rest =>
    simp only [interpolation, Option.getD_some, List.isEmpty_cons,
      if_neg Bool.false_ne_true]
    exact interp_fold_verbatim cfg q (c :: rest) h

/-- Interpolation leaves a text verbatim when the text contains no
occurrence of the interpolation opening delimiter at all. -/
theorem interp_no_presub {cfg : I18nConfig} {q : Query} {cs : Str}
    (h : containsSub cs (cfgPre cfg) = false) :
    interpolation cfg (some cs) (some q) = cs :=
  interp_verbatim (fun _ _ => hasMatch_of_no_sub h)

/-! Lemmas about the resolver. -/

theorem tGo_nil (ctx : Ctx) (q : Option Query) (ro : Bool) (key : Str) :
    tGo ctx q ro key [] = finishT ctx.config key (valueAt ctx key q ro) q := rfl

theorem tGo_cons (ctx : Ctx) (q : Option Query) (ro : Bool) (key first : Str)
    (rest : List Str) :
    tGo ctx q ro key (first :: rest) =
      if isEmptyVal (valueAt ctx key q ro) = true then tGo ctx q ro first rest
      else finishT ctx.config key (valueAt ctx key q ro) q := by
  simp only [tGo]

theorem valueAt_append {ctx : Ctx} {ns leaf : Str} (q : Option Query)
    (ro : Bool) (hns : ':' ∉ ns) (hleaf : leaf ≠ []) :
    valueAt ctx (ns ++ ':' :: leaf) q ro =
      getDicValue (dicFor ctx ns)
        (plural ctx.pluralRules (dicFor ctx ns) (some leaf) q) ro := by
  unfold valueAt
  rw [splitKey_append hns hleaf]

theorem finishT_none (cfg : I18nConfig) (k : Str) (q : Option Query) :
    finishT cfg k none q = .str k := rfl

theorem finishT_str_nonempty {cfg : I18nConfig} {k s : Str} {q : Option Query}
    {r : Str} (hr : interpolation cfg (some s) q = r) (hne : r ≠ []) :
    finishT cfg k (some (.str s)) q = .str r := by
  simp only [finishT, hr]
  simp [List.isEmpty_iff, hne]

/-- With `returnObjects` false, a value classified empty is `none`. -/
theorem valueAt_empty_ro_false {ctx : Ctx} {key : Str} {q : Option Query}
    (h : isEmptyVal (valueAt ctx key q false) = true) :
    valueAt ctx key q false = none :=
  empty_ro_false h

/-! Claim C1. -/

/-- C1 counterexample: with an empty registry every key resolves empty,
and exhausting the fallback chain `["b:y", "c:z"]` starting from key
`"a:x"` returns the LAST fallback key `"c:z"` — not the original
composite key `"a:x"` that the claim requires as the last-resort value. -/
theorem c1_counterexample :
    t emptyCtx ("a:x".toList) none
        (some ⟨false, some (.inr ["b:y".toList, "c:z".toList])⟩) =
      .str ("c:z".toList) ∧
    TResult.str ("c:z".toList) ≠ TResult.str ("a:x".toList) := by
  refine ⟨rfl, fun h => ?_⟩
  injection h with h'
  exact absurd h' (by decide)

/-- C1 (amended): for a key `k0` that resolves empty and a configured
fallback chain `[k1, k2]` (with `returnObjects` unset),
`resolve(k0, q, \x7bfallback: [k1, k2]\x7d)` equals `resolve(k1, ...)` if
`k1` resolves non-empty, else `resolve(k2, ...)` if `k2` resolves
non-empty, and when the whole chain is exhausted the result is the
literal LAST fallback key `k2` (not the original key `k0`). -/
theorem c1_fallback_chain (ctx : Ctx) (k0 k1 k2 : Str) (q : Option Query)
    (h0 : emptyAt ctx k0 q false = true) :
    t ctx k0 q (some ⟨false, some (.inr [k1, k2])⟩) =
      if emptyAt ctx k1 q false = true then
        if emptyAt ctx k2 q false = true then .str k2
        else t ctx k2 q none
      else t ctx k1 q none := by
  simp only [emptyAt] at h0 ⊢
  show tGo ctx q false k0 [k1, k2] = _
  rw [tGo_cons, if_pos h0]
  by_cases e1 : isEmptyVal (valueAt ctx k1 q false) = true
  · rw [tGo_cons, if_pos e1, if_pos e1]
    by_cases e2 : isEmptyVal (valueAt ctx k2 q false) = true
    · rw [if_pos e2, tGo_nil, valueAt_empty_ro_false e2, finishT_none]
    · rw [if_neg e2]; rfl
  · rw [tGo_cons, if_neg e1, if_neg e1]; rfl

/-- Witness for C1: a concrete empty-resolving key with chain
`["b:y", "c:z"]` where `"b:y"` resolves non-empty. -/
theorem c1_fallback_chain_witness :
    emptyAt fallbackCtx ("a:x".toList) none false = true ∧
    t fallbackCtx ("a:x".toList) none
        (some ⟨false, some (.inr ["b:y".toList, "c:z".toList])⟩) =
      (if emptyAt fallbackCtx ("b:y".toList) none false = true then
        if emptyAt fallbackCtx ("c:z".toList) none false = true then
          .str ("c:z".toList)
        else t fallbackCtx ("c:z".toList) none none
      else t fallbackCtx ("b:y".toList) none none) :=
  ⟨rfl, c1_fallback_chain fallbackCtx ("a:x".toList) ("b:y".toList)
    ("c:z".toList) none rfl⟩

/-! Claim C2. -/

/-- C2 counterexample: the claim asserts the stored value is returned
even when it is the empty string, but a key present with value `""` is
classified empty (the navigation fold replaces the falsy value by an
empty object) and resolution returns the literal composite key. -/
theorem c2_counterexample :
    alist [("a".toList, DicValue.str [])] ("a".toList) = some (.str []) ∧
    t emptyLeafCtx ("ns:a".toList) none none = .str ("ns:a".toList) ∧
    TResult.str ("ns:a".toList) ≠ TResult.str [] := by
  refine ⟨rfl, rfl, fun h => ?_⟩
  injection h with h'
  exact absurd h' (by decide)

/-- C2 (amended): for every dictionary and key present with a string
value `v` and no query, resolution returns exactly `v` when `v` is
non-empty; when `v` is the empty string, the result is the literal
composite key instead (the empty string itself is never returned). -/
theorem c2_lookup_returns_value (reg : List (Str × DicValue))
    (rules : Int → Str) (cfg : I18nConfig) (ns leaf v : Str)
    (es : List (Str × DicValue))
    (hreg : alist reg ns = some (.obj es))
    (hleaf : alist es leaf = some (.str v))
    (hns : ':' ∉ ns) (hlne : leaf ≠ []) (hld : '.' ∉ leaf) :
    (v ≠ [] → t ⟨reg, rules, cfg⟩ (ns ++ ':' :: leaf) none none = .str v) ∧
    (v = [] → t ⟨reg, rules, cfg⟩ (ns ++ ':' :: leaf) none none =
      .str (ns ++ ':' :: leaf)) := by
  have hdic : dicFor ⟨reg, rules, cfg⟩ ns = .obj es := by simp [dicFor, hreg]
  have hval : ∀ ro, valueAt ⟨reg, rules, cfg⟩ (ns ++ ':' :: leaf) none ro =
      getDicValue (.obj es) (some leaf) ro := by
    intro ro
    rw [valueAt_append none ro hns hlne, plural_none_query, hdic]
  constructor
  · intro hv
    show tGo ⟨reg, rules, cfg⟩ none false (ns ++ ':' :: leaf) [] = _
    rw [tGo_nil, hval false, getDicValue_str false hleaf hv hld]
    exact finishT_str_nonempty (interpolation_no_query v) hv
  · intro hv
    subst hv
    show tGo ⟨reg, rules, cfg⟩ none false (ns ++ ':' :: leaf) [] = _
    rw [tGo_nil, hval false, getDicValue_empty_str false hleaf hld]
    exact finishT_none cfg _ none

/-- Witness for C2: a concrete dictionary where `ns:a` holds `"A"`. -/
theorem c2_lookup_returns_value_witness :
    t ⟨wReg2, enRules, dfltConfig⟩ ("ns:a".toList) none none =
      .str ("A".toList) :=
  (c2_lookup_returns_value wReg2 enRules dfltConfig ("ns".toList)
    ("a".toList) ("A".toList) _ rfl rfl (by decide) (by decide) (by decide)).1
    (by decide)

/-! Claim C3. -/

/-- C3 counterexample, two failing inputs.  First: the dictionary
CONTAINS a value at the exact-count key `base_2` (the empty string), yet
with count 2 resolution returns the category key's value `"others"` —
the exact-count key does not take precedence when its value is falsy,
because the probe runs through the same falsy-replacing navigation with
`returnObjects` false.  Second: when `base_2` holds the non-empty value
`"⦃⦃count⦄⦄ apples"` (written here with the source's doubled-brace
delimiters), resolution returns the interpolated `"2 apples"`, not the
stored value — the claim's "returns the value stored at `base_<c>`" also
fails verbatim whenever the value contains a live placeholder. -/
theorem c3_counterexample :
    (alist [("base_2".toList, DicValue.str []),
            ("base_other".toList, DicValue.str ("others".toList))]
        ("base_2".toList) = some (.str []) ∧
      t exactEmptyCtx ("ns:base".toList) (some [("count".toList, QVal.n 2)])
          none = .str ("others".toList) ∧
      TResult.str ("others".toList) ≠ TResult.str []) ∧
    (alist [("base_2".toList, DicValue.str
          ['{', '{', 'c', 'o', 'u', 'n', 't', '}', '}', ' ',
           'a', 'p', 'p', 'l', 'e', 's'])] ("base_2".toList) =
        some (.str ['{', '{', 'c', 'o', 'u', 'n', 't', '}', '}', ' ',
           'a', 'p', 'p', 'l', 'e', 's']) ∧
      t exactPhCtx ("ns:base".toList) (some [("count".toList, QVal.n 2)])
          none = .str ("2 apples".toList) ∧
      TResult.str ("2 apples".toList) ≠
        TResult.str ['{', '{', 'c', 'o', 'u', 'n', 't', '}', '}', ' ',
           'a', 'p', 'p', 'l', 'e', 's']) := by
  refine ⟨⟨rfl, rfl, fun h => ?_⟩, rfl, rfl, fun h => ?_⟩ <;>
    (injection h with h'; exact absurd h' (by decide))

/-- C3 (amended): for every count `c` and dictionary holding a NON-EMPTY
string at the exact-count key `base_<c>`, the plural selector picks
`base_<c>` — taking precedence over any category key that also exists —
and resolution returns that stored value exactly, whenever the value
contains no occurrence of the interpolation opening delimiter and every
query key is a regex-literal name (the embedding's faithful domain for
the source's unescaped-key regex: with literal keys, every match
contains the escaped opening delimiter, so a delimiter-free value is
left untouched). -/
theorem c3_exact_precedence (reg : List (Str × DicValue))
    (rules : Int → Str) (cfg : I18nConfig) (ns base v : Str)
    (es : List (Str × DicValue)) (q : Query) (c : Int)
    (hreg : alist reg ns = some (.obj es))
    (hq : queryCount q = some c)
    (hexact : alist es (base ++ '_' :: intToStr c) = some (.str v))
    (hv : v ≠ []) (hns : ':' ∉ ns) (hbne : base ≠ [])
    (hbd : '.' ∉ base ++ '_' :: intToStr c)
    (hkeys : ∀ kv ∈ q, safeName kv.1 = true)
    (hnosub : containsSub v (cfgPre cfg) = false) :
    plural rules (.obj es) (some base) (some q) =
      some (base ++ '_' :: intToStr c) ∧
    t ⟨reg, rules, cfg⟩ (ns ++ ':' :: base) (some q) none = .str v := by
  have hdic : dicFor ⟨reg, rules, cfg⟩ ns = .obj es := by simp [dicFor, hreg]
  have hget : getDicValue (.obj es) (some (base ++ '_' :: intToStr c)) false =
      some (.str v) := getDicValue_str false hexact hv hbd
  have hplu : plural rules (.obj es) (some base) (some q) =
      some (base ++ '_' :: intToStr c) := by
    have : (getDicValue (.obj es)
        (some (jsStr (some base) ++ '_' :: intToStr c)) false).isSome = true := by
      simp [jsStr, hget]
    simpa [jsStr] using plural_exact hq this
  refine ⟨hplu, ?_⟩
  show tGo ⟨reg, rules, cfg⟩ (some q) false (ns ++ ':' :: base) [] = _
  rw [tGo_nil, valueAt_append (some q) false hns hbne, hdic, hplu, hget]
  exact finishT_str_nonempty (interp_no_presub hnosub) hv

/-- Witness for C3: count 2 with `base_2 = "two"` while `base_other` also
exists; the exact key wins. -/
theorem c3_exact_precedence_witness :
    plural enRules
        (.obj [("base_2".toList, .str ("two".toList)),
               ("base_other".toList, .str ("many".toList))])
        (some ("base".toList)) (some [("count".toList, QVal.n 2)]) =
      some ("base".toList ++ '_' :: intToStr 2) ∧
    t ⟨wReg3, enRules, dfltConfig⟩ ("ns:base".toList)
        (some [("count".toList, QVal.n 2)]) none = .str ("two".toList) :=
  c3_exact_precedence wReg3 enRules dfltConfig ("ns".toList) ("base".toList)
    ("two".toList) _ [("count".toList, QVal.n 2)] 2 rfl rfl rfl (by decide)
    (by decide) (by decide) (by decide) (by decide) (by decide)

/-! Claim C4. -/

/-- C4 counterexample, two failing inputs.  First: the category key
`base_other` EXISTS (holding the empty string) with count 5 and no exact
key, yet resolution does not return the category's value — the category
probe sees the falsy value as an empty object and falls back to the base
key, whose value `"hello"` is returned.  Second: when `base_other` holds
the non-empty value `"⦃⦃count⦄⦄ apples"` (written here with the source's
doubled-brace delimiters), resolution returns the interpolated
`"5 apples"`, not the stored value. -/
theorem c4_counterexample :
    (alist [("base_other".toList, DicValue.str []),
            ("base".toList, DicValue.str ("hello".toList))]
        ("base_other".toList) = some (.str []) ∧
      enRules 5 = "other".toList ∧
      t catEmptyCtx ("ns:base".toList) (some [("count".toList, QVal.n 5)])
          none = .str ("hello".toList) ∧
      TResult.str ("hello".toList) ≠ TResult.str []) ∧
    (alist [("base_other".toList, DicValue.str
          ['{', '{', 'c', 'o', 'u', 'n', 't', '}', '}', ' ',
           'a', 'p', 'p', 'l', 'e', 's'])] ("base_other".toList) =
        some (.str ['{', '{', 'c', 'o', 'u', 'n', 't', '}', '}', ' ',
           'a', 'p', 'p', 'l', 'e', 's']) ∧
      t catPhCtx ("ns:base".toList) (some [("count".toList, QVal.n 5)])
          none = .str ("5 apples".toList) ∧
      TResult.str ("5 apples".toList) ≠
        TResult.str ['{', '{', 'c', 'o', 'u', 'n', 't', '}', '}', ' ',
           'a', 'p', 'p', 'l', 'e', 's']) := by
  refine ⟨⟨rfl, rfl, rfl, fun h => ?_⟩, rfl, rfl, fun h => ?_⟩ <;>
    (injection h with h'; exact absurd h' (by decide))

/-- C4 (amended): for counts `c > 1` with no exact-count match, if the
category key `base_<category(c)>` holds a NON-EMPTY string, resolution
returns that stored value exactly, whenever the value contains no
occurrence of the interpolation opening delimiter and every query key is
a regex-literal name (the embedding's faithful domain for the source's
unescaped-key regex); and for counts `c ≤ 1` with no exact-count match,
the plural selector returns the unmodified base key even if a category
key exists. -/
theorem c4_category_selection (reg : List (Str × DicValue))
    (rules : Int → Str) (cfg : I18nConfig) (ns base : Str)
    (es : List (Str × DicValue)) (q : Query) (c : Int)
    (hreg : alist reg ns = some (.obj es))
    (hq : queryCount q = some c)
    (hnum : getDicValue (.obj es) (some (base ++ '_' :: intToStr c)) false =
      none)
    (hkeys : ∀ kv ∈ q, safeName kv.1 = true)
    (hns : ':' ∉ ns) (hbne : base ≠ []) :
    (∀ v : Str, c > 1 →
      alist es (base ++ '_' :: rules c) = some (.str v) → v ≠ [] →
      '.' ∉ base ++ '_' :: rules c →
      containsSub v (cfgPre cfg) = false →
      t ⟨reg, rules, cfg⟩ (ns ++ ':' :: base) (some q) none = .str v) ∧
    (c ≤ 1 → plural rules (.obj es) (some base) (some q) = some base) := by
  have hdic : dicFor ⟨reg, rules, cfg⟩ ns = .obj es := by simp [dicFor, hreg]
  have hnum' : getDicValue (.obj es)
      (some (jsStr (some base) ++ '_' :: intToStr c)) false = none := by
    simpa [jsStr] using hnum
  constructor
  · intro v hgt hcat hv hcd hnosub
    have hget : getDicValue (.obj es) (some (base ++ '_' :: rules c)) false =
        some (.str v) := getDicValue_str false hcat hv hcd
    have hplu : plural rules (.obj es) (some base) (some q) =
        some (base ++ '_' :: rules c) := by
      have : (getDicValue (.obj es)
          (some (jsStr (some base) ++ '_' :: rules c)) false).isSome = true := by
        simp [jsStr, hget]
      simpa [jsStr] using plural_category hq hnum' hgt this
    show tGo ⟨reg, rules, cfg⟩ (some q) false (ns ++ ':' :: base) [] = _
    rw [tGo_nil, valueAt_append (some q) false hns hbne, hdic, hplu, hget]
    exact finishT_str_nonempty (interp_no_presub hnosub) hv
  · intro hle
    simpa [jsStr] using plural_base hq hnum' (Or.inl hle)

/-- Witness for C4: count 5 with no exact key and `base_other = "many"`. -/
theorem c4_category_selection_witness :
    t ⟨wReg4, enRules, dfltConfig⟩ ("ns:base".toList)
        (some [("count".toList, QVal.n 5)]) none = .str ("many".toList) :=
  (c4_category_selection wReg4 enRules dfltConfig ("ns".toList)
    ("base".toList) _ [("count".toList, QVal.n 5)] 5 rfl rfl rfl (by decide)
    (by decide) (by decide)).1 ("many".toList) (by decide) rfl (by decide)
    (by decide) rfl

/-! Claim C5. -/

/-- C5: string interpolation processes query keys in the iteration order
of the query mapping, key by key over the evolving text: interpolating
with `(k, v) :: rest` equals first interpolating with the single key
`(k, v)` and then interpolating the resulting text with `rest`, so later
keys see the text already substituted by earlier keys.  The hypotheses
confine the statement to the embedding's faithful domain: a nonempty
opening delimiter and regex-literal key names make every pattern
non-nullable, so the source's fold and this re-entrant composition agree
(with a nullable pattern — an empty delimiter pair, or a key splicing an
empty alternation branch into the regex — JS empty-match advancement
rewrites the empty intermediate text that the re-entry's falsy-text
check short-circuits). -/
theorem c5_sequential_interpolation (cfg : I18nConfig) (text : Str)
    (kv : Str × QVal) (rest : Query)
    (hpre : cfgPre cfg ≠ [])
    (hk : safeName kv.1 = true)
    (hrest : ∀ kv2 ∈ rest, safeName kv2.1 = true) :
    interpolation cfg (some text) (some (kv :: rest)) =
      interpolation cfg (some (interpolation cfg (some text) (some [kv])))
        (some rest) :=
  interpolation_step cfg text kv rest

/-- Witness for C5: two keys applied to a placeholder for the first key. -/
theorem c5_sequential_interpolation_witness :
    interpolation dfltConfig (some ['{', '{', 'a', '}', '}'])
        (some [(['a'], QVal.s ['A']), (['b'], QVal.s ['B'])]) =
      interpolation dfltConfig
        (some (interpolation dfltConfig (some ['{', '{', 'a', '}', '}'])
          (some [(['a'], QVal.s ['A'])])))
        (some [(['b'], QVal.s ['B'])]) :=
  c5_sequential_interpolation dfltConfig ['{', '{', 'a', '}', '}']
    (['a'], QVal.s ['A']) [(['b'], QVal.s ['B'])] (by decide) (by decide)
    (by decide)

/-! Helper lemmas for claim C6. -/

theorem cfgPre_dflt : cfgPre dfltConfig = ['{', '{'] := rfl

theorem cfgSuf_dflt : cfgSuf dfltConfig = ['}', '}'] := rfl

theorem interpolation_single {cfg : I18nConfig} {x : Str} {val : QVal}
    {cs : Str} (h : cs ≠ []) :
    interpolation cfg (some cs) (some [(x, val)]) =
      replaceAll (cfgPre cfg) x (cfgSuf cfg) val.toStr cs := by
  cases cs with
  | nil => exact absurd rfl h
  | cons c rest =>
    simp only [interpolation, Option.getD_some, List.isEmpty_cons,
      if_neg Bool.false_ne_true, List.foldl_cons, List.foldl_nil]

/-- The scanner on a text decomposed into brace-free segments separated
by full placeholder occurrences replaces exactly the occurrences. -/
theorem scan_decomp (x repl : Str) (hx : x ≠ [])
    (hxw : ∀ c ∈ x, isWs c = false) :
    ∀ (parts : List (Str × Str × Str)) (last : Str),
      (∀ p ∈ parts, (∀ c ∈ p.1, c ≠ '{') ∧ (∀ c ∈ p.2.1, isWs c = true) ∧
        (∀ c ∈ p.2.2, isWs c = true)) →
      (∀ c ∈ last, c ≠ '{') →
      replaceAll ['{', '{'] x ['}', '}'] repl
          (buildText ['{', '{'] x ['}', '}'] parts last) =
        buildOut repl parts last
  | [], last, _, hlast => by
    have h := replaceAll_seg '{' ['{'] x ['}', '}'] repl [] hlast
    simp only [List.append_nil, replaceAll_nil] at h
    simpa [buildText, buildOut] using h
  | (s, w1, w2) :: ps, last, hparts, hlast => by
    obtain ⟨hs, hw1, hw2⟩ := hparts (s, w1, w2) (List.mem_cons_self _ _)
    have hrec := scan_decomp x repl hx hxw ps last
      (fun p hp => hparts p (List.mem_cons_of_mem _ hp)) hlast
    have hm := matchPat_build ['{', '{'] ['}', '}']
      (buildText ['{', '{'] x ['}', '}'] ps last) hw1 hw2 hx hxw
      (by decide) (by decide)
    simp only [buildText, buildOut, List.append_assoc, List.cons_append,
      List.nil_append] at hm ⊢
    rw [replaceAll_seg '{' ['{'] x ['}', '}'] repl _ hs,
      replaceAll_cons_match (by decide) hm, hrec]

theorem buildOut_no_brace {repl : Str} (hr : ∀ c ∈ repl, c ≠ '{') :
    ∀ (parts : List (Str × Str × Str)) (last : Str),
      (∀ p ∈ parts, ∀ c ∈ p.1, c ≠ '{') → (∀ c ∈ last, c ≠ '{') →
      ∀ c ∈ buildOut repl parts last, c ≠ '{'
  | [], _, _, hlast => hlast
  | (s, w1, w2) :: ps, last, hparts, hlast => by
    intro c hc
    simp only [buildOut, List.append_assoc, List.mem_append] at hc
    rcases hc with hc | hc | hc
    · exact hparts _ (List.mem_cons_self _ _) c hc
    · exact hr c hc
    · exact buildOut_no_brace hr ps last
        (fun p hp => hparts p (List.mem_cons_of_mem _ hp)) hlast c hc

/-! Claim C6. -/

/-- C6 counterexample: with query value `String(Q.x)` itself containing
the placeholder pattern, the output still contains a full placeholder
occurrence for the query key `x`, contradicting the claim that no such
pattern remains (the scanner never rescans replacement text). -/
theorem c6_counterexample :
    interpolation dfltConfig (some ['{', '{', 'x', '}', '}'])
        (some [(['x'], QVal.s ['{', '{', 'x', '}', '}'])]) =
      ['{', '{', 'x', '}', '}'] ∧
    hasMatch ['{', '{'] ['x'] ['}', '}']
        (interpolation dfltConfig (some ['{', '{', 'x', '}', '}'])
          (some [(['x'], QVal.s ['{', '{', 'x', '}', '}'])])) = true :=
  ⟨rfl, rfl⟩

/-- C6 (amended): (a) for a single-key query whose name is nonempty,
whitespace-free and regex-literal (the faithful domain for the source's
unescaped-key regex), on a text decomposed into brace-free literal
segments separated by placeholder occurrences of that name, and whose
stringified value contains neither braces nor the dollar character (JS
replacement `$`-escapes are substituted, not literal), every occurrence
is replaced by the value and no placeholder pattern for that name
remains in the output; (b) for a nonempty opening delimiter, a suffix
not starting with whitespace, and regex-literal query key names, when no
query key's pattern matches anywhere in the text (in particular for
placeholders whose names are absent from the query), the text is
returned verbatim. -/
theorem c6_placeholder_replacement :
    (∀ (x : Str) (val : QVal) (parts : List (Str × Str × Str)) (last : Str),
      x ≠ [] → (∀ c ∈ x, isWs c = false ∧ c ∉ regexEscapeSet) →
      (∀ p ∈ parts, (∀ c ∈ p.1, c ≠ '{') ∧ (∀ c ∈ p.2.1, isWs c = true) ∧
        (∀ c ∈ p.2.2, isWs c = true)) →
      (∀ c ∈ last, c ≠ '{') →
      (∀ c ∈ val.toStr, c ≠ '{' ∧ c ≠ '$') →
      interpolation dfltConfig
          (some (buildText ['{', '{'] x ['}', '}'] parts last))
          (some [(x, val)]) =
        buildOut val.toStr parts last ∧
      hasMatch ['{', '{'] x ['}', '}'] (buildOut val.toStr parts last) =
        false) ∧
    (∀ (cfg : I18nConfig) (q : Query) (text : Str),
      cfgPre cfg ≠ [] →
      (∀ c ∈ (cfgSuf cfg).take 1, isWs c = false) →
      (∀ kv ∈ q, safeName kv.1 = true) →
      (∀ kv ∈ q, hasMatch (cfgPre cfg) kv.1 (cfgSuf cfg) text = false) →
      interpolation cfg (some text) (some q) = text) := by
  constructor
  · intro x val parts last hx hxw hparts hlast hrepl
    refine ⟨?_, hasMatch_of_no_head
      (buildOut_no_brace (fun c hc => (hrepl c hc).1) parts last
        (fun p hp => (hparts p hp).1) hlast)⟩
    cases parts with
    | nil =>
      simp only [buildText, buildOut]
      refine interp_verbatim (fun kv hkv => ?_)
      rcases List.mem_singleton.mp hkv with rfl
      exact hasMatch_of_no_head hlast
    | cons p ps =>
      rcases p with ⟨s, w1, w2⟩
      have hne : buildText ['{', '{'] x ['}', '}'] ((s, w1, w2) :: ps) last ≠
          [] := by
        intro hcontra
        have hl := congrArg List.length hcontra
        simp [buildText, List.length_append] at hl
      rw [interpolation_single hne, cfgPre_dflt, cfgSuf_dflt]
      exact scan_decomp x val.toStr hx (fun c hc => (hxw c hc).1)
        ((s, w1, w2) :: ps) last hparts hlast
  · intro cfg q text hpre hsuf hq h
    exact interp_verbatim h

/-- Witness for C6: text `"a {{ x}} b"` with value `"V"` becomes
`"a V b"`; text `"{{y}}"` with query key `x` is returned verbatim. -/
theorem c6_placeholder_replacement_witness :
    interpolation dfltConfig
        (some (buildText ['{', '{'] ['x'] ['}', '}']
          [(['a', ' '], [' '], [])] [' ', 'b']))
        (some [(['x'], QVal.s ['V'])]) =
      buildOut ['V'] [(['a', ' '], [' '], [])] [' ', 'b'] ∧
    interpolation dfltConfig (some ['{', '{', 'y', '}', '}'])
        (some [(['x'], QVal.s ['V'])]) = ['{', '{', 'y', '}', '}'] :=
  ⟨(c6_placeholder_replacement.1 ['x'] (QVal.s ['V'])
      [(['a', ' '], [' '], [])] [' ', 'b'] (by decide) (by decide)
      (by decide) (by decide) (by decide)).1,
   c6_placeholder_replacement.2 dfltConfig [(['x'], QVal.s ['V'])]
      ['{', '{', 'y', '}', '}'] (by decide) (by decide) (by decide)
      (by decide)⟩

/-! Claim C7. -/

/-- C7: a non-string object leaf looked up without `returnObjects` is
classified exactly as a missing key: the lookup yields `undefined` (just
as it does when the key is absent), the resolver classifies the result
as empty, and resolution falls through to the fallback chain when one is
configured, or to the literal composite key otherwise. -/
theorem c7_object_leaf_like_missing (reg : List (Str × DicValue))
    (rules : Int → Str) (cfg : I18nConfig) (ns leaf : Str)
    (es o : List (Str × DicValue))
    (hreg : alist reg ns = some (.obj es))
    (hleaf : alist es leaf = some (.obj o))
    (hns : ':' ∉ ns) (hlne : leaf ≠ []) (hld : '.' ∉ leaf) :
    getDicValue (.obj es) (some leaf) false = none ∧
    (∀ es2 : List (Str × DicValue), alist es2 leaf = none →
      getDicValue (.obj es2) (some leaf) false = none) ∧
    isEmptyVal (valueAt ⟨reg, rules, cfg⟩ (ns ++ ':' :: leaf) none false) =
      true ∧
    t ⟨reg, rules, cfg⟩ (ns ++ ':' :: leaf) none (some ⟨false, none⟩) =
      .str (ns ++ ':' :: leaf) ∧
    (∀ (f : Str) (rest : List Str),
      t ⟨reg, rules, cfg⟩ (ns ++ ':' :: leaf) none
          (some ⟨false, some (.inr (f :: rest))⟩) =
        t ⟨reg, rules, cfg⟩ f none (some ⟨false, some (.inr rest)⟩)) := by
  have hdic : dicFor ⟨reg, rules, cfg⟩ ns = .obj es := by simp [dicFor, hreg]
  have hget : getDicValue (.obj es) (some leaf) false = none := by
    rw [getDicValue_obj false hleaf hld]; rfl
  have hval : valueAt ⟨reg, rules, cfg⟩ (ns ++ ':' :: leaf) none false =
      none := by
    rw [valueAt_append none false hns hlne, plural_none_query, hdic, hget]
  refine ⟨hget, ?_, ?_, ?_, ?_⟩
  · intro es2 h2
    rw [getDicValue_absent false h2 hld]; rfl
  · rw [hval]; rfl
  · show tGo ⟨reg, rules, cfg⟩ none false (ns ++ ':' :: leaf) [] = _
    rw [tGo_nil, hval, finishT_none]
  · intro f rest
    show tGo ⟨reg, rules, cfg⟩ none false (ns ++ ':' :: leaf) (f :: rest) = _
    rw [tGo_cons, hval,
      if_pos (show isEmptyVal (none : Option DicValue) = true from rfl)]
    rfl

/-- Witness for C7: `ns:a` holds a nested object; the lookup probes and
the resolver treat it as missing. -/
theorem c7_object_leaf_like_missing_witness :
    getDicValue (.obj [("a".toList, DicValue.obj
        [("b".toList, DicValue.str ("B".toList))])])
      (some ("a".toList)) false = none ∧
    t ⟨wReg7, enRules, dfltConfig⟩ ("ns:a".toList) none
        (some ⟨false, none⟩) = .str ("ns:a".toList) :=
  ⟨(c7_object_leaf_like_missing wReg7 enRules dfltConfig ("ns".toList)
      ("a".toList) _ _ rfl rfl (by decide) (by decide) (by decide)).1,
   (c7_object_leaf_like_missing wReg7 enRules dfltConfig ("ns".toList)
      ("a".toList) _ _ rfl rfl (by decide) (by decide) (by decide)).2.2.2.1⟩

/-! Claim C8. -/

/-- Depth budget `length of fallback chain + 1` always suffices for the
worker recursion. -/
theorem tFuel_sufficient (ctx : Ctx) (q : Option Query) (ro : Bool) :
    ∀ (fbs : List Str) (key : Str),
      tFuel ctx q ro (fbs.length + 1) key fbs = some (tGo ctx q ro key fbs)
  | [], _ => rfl
  | f :: rest, key => by
    simp only [List.length_cons, tFuel, tGo]
    by_cases h : isEmptyVal (valueAt ctx key q ro) = true
    · simp only [h, if_pos]
      exact tFuel_sufficient ctx q ro rest f
    · simp [h]

/-- C8: the resolver always terminates, with recursion depth at most the
length of the (normalised) fallback chain plus one: the depth-limited
resolver with that fuel budget never runs out and computes exactly `t`,
because each fallback step consumes one element of the finite chain. -/
theorem c8_bounded_recursion :
    (∀ (ctx : Ctx) (q : Option Query) (ro : Bool) (key : Str)
        (fbs : List Str),
      tFuel ctx q ro (fbs.length + 1) key fbs = some (tGo ctx q ro key fbs)) ∧
    (∀ (ctx : Ctx) (key : Str) (q : Option Query) (opts : Option TOptions),
      tFuel ctx q (roOf opts) ((optFallbacks opts).length + 1) key
          (optFallbacks opts) = some (t ctx key q opts)) :=
  ⟨fun ctx q ro key fbs => tFuel_sufficient ctx q ro fbs key,
   fun ctx key q opts =>
    tFuel_sufficient ctx q (roOf opts) (optFallbacks opts) key⟩

/-! Claim C9. -/

/-- C9 counterexample: the claim quantifies over dictionaries where
`base_<count>` OR `base_<category>` holds a non-string object, but when
only the exact-count key `base_2` holds an object while the category key
`base_other` holds a non-empty string, the selector (count 2 > 1) does
NOT return the unmodified base key: the exact probe fails on the object
and the category probe finds the string, so the category key is
selected. -/
theorem c9_counterexample :
    plural enRules
        (.obj [("base_2".toList,
            DicValue.obj [("x".toList, DicValue.str ("X".toList))]),
          ("base_other".toList, DicValue.str ("many".toList))])
        (some ("base".toList)) (some [("count".toList, QVal.n 2)]) =
      some ("base_other".toList) ∧
    some ("base_other".toList) ≠ some ("base".toList) :=
  ⟨rfl, by decide⟩

/-- C9 (amended): the plural selector's probes call the dictionary
lookup without passing the caller's options, so `returnObjects` is false
inside them: when BOTH the exact-count key and the category key hold
non-string object values, both probes yield `undefined` (although the
same lookups with `returnObjects` true would find the objects), the
selector returns the unmodified base key, and the resolver then looks up
the base key even when the caller passed `returnObjects: true`.  (When
only the exact key holds an object and the category key holds a
non-empty string with count > 1, the category key is selected instead —
see the counterexample.) -/
theorem c9_plural_probes_ignore_options (reg : List (Str × DicValue))
    (rules : Int → Str) (cfg : I18nConfig) (ns base : Str)
    (es o1 o2 : List (Str × DicValue)) (q : Query) (c : Int)
    (hreg : alist reg ns = some (.obj es))
    (hq : queryCount q = some c)
    (hnum : alist es (base ++ '_' :: intToStr c) = some (.obj o1))
    (hcat : alist es (base ++ '_' :: rules c) = some (.obj o2))
    (hnd : '.' ∉ base ++ '_' :: intToStr c)
    (hcd : '.' ∉ base ++ '_' :: rules c)
    (hns : ':' ∉ ns) (hbne : base ≠ []) :
    getDicValue (.obj es) (some (base ++ '_' :: intToStr c)) false = none ∧
    getDicValue (.obj es) (some (base ++ '_' :: intToStr c)) true =
      some (.obj o1) ∧
    getDicValue (.obj es) (some (base ++ '_' :: rules c)) false = none ∧
    plural rules (.obj es) (some base) (some q) = some base ∧
    valueAt ⟨reg, rules, cfg⟩ (ns ++ ':' :: base) (some q) true =
      getDicValue (.obj es) (some base) true := by
  have hdic : dicFor ⟨reg, rules, cfg⟩ ns = .obj es := by simp [dicFor, hreg]
  have h1 : getDicValue (.obj es) (some (base ++ '_' :: intToStr c)) false =
      none := by rw [getDicValue_obj false hnum hnd]; rfl
  have h2 : getDicValue (.obj es) (some (base ++ '_' :: intToStr c)) true =
      some (.obj o1) := by rw [getDicValue_obj true hnum hnd]; rfl
  have h3 : getDicValue (.obj es) (some (base ++ '_' :: rules c)) false =
      none := by rw [getDicValue_obj false hcat hcd]; rfl
  have hplu : plural rules (.obj es) (some base) (some q) = some base := by
    have hnum' : getDicValue (.obj es)
        (some (jsStr (some base) ++ '_' :: intToStr c)) false = none := by
      simpa [jsStr] using h1
    have hcat' : getDicValue (.obj es)
        (some (jsStr (some base) ++ '_' :: rules c)) false = none := by
      simpa [jsStr] using h3
    exact plural_base hq hnum' (Or.inr hcat')
  refine ⟨h1, h2, h3, hplu, ?_⟩
  rw [valueAt_append (some q) true hns hbne, hdic, hplu]

/-- Witness for C9: `base_2` and `base_other` hold objects; with count 2
and `returnObjects: true`, the selector still picks the base key. -/
theorem c9_plural_probes_ignore_options_witness :
    plural enRules
        (.obj [("base_2".toList, .obj [("x".toList, .str ("X".toList))]),
               ("base_other".toList, .obj [])])
        (some ("base".toList)) (some [("count".toList, QVal.n 2)]) =
      some ("base".toList) ∧
    valueAt ⟨wReg9, enRules, dfltConfig⟩ ("ns:base".toList)
        (some [("count".toList, QVal.n 2)]) true =
      getDicValue (.obj [("base_2".toList,
          DicValue.obj [("x".toList, DicValue.str ("X".toList))]),
        ("base_other".toList, DicValue.obj [])])
        (some ("base".toList)) true :=
  ⟨(c9_plural_probes_ignore_options wReg9 enRules dfltConfig ("ns".toList)
      ("base".toList) _ _ _ [("count".toList, QVal.n 2)] 2 rfl rfl rfl rfl
      (by decide) (by decide) (by decide) (by decide)).2.2.2.1,
   (c9_plural_probes_ignore_options wReg9 enRules dfltConfig ("ns".toList)
      ("base".toList) _ _ _ [("count".toList, QVal.n 2)] 2 rfl rfl rfl rfl
      (by decide) (by decide) (by decide) (by decide)).2.2.2.2⟩

/-! Claim C10. -/

/-- C10: the navigation fold replaces any falsy value — in particular the
empty string — by an empty object: for a key whose stored value is the
empty string, the fold yields an empty object, the lookup yields
`undefined` without `returnObjects` (and the empty object with it), the
resolver classifies the result as empty either way, and resolution falls
through to the fallback chain when configured or returns the literal
composite key — never the empty string itself. -/
theorem c10_empty_string_treated_empty (reg : List (Str × DicValue))
    (rules : Int → Str) (cfg : I18nConfig) (ns k : Str)
    (es : List (Str × DicValue))
    (hreg : alist reg ns = some (.obj es))
    (hk : alist es k = some (.str []))
    (hns : ':' ∉ ns) (hkne : k ≠ []) (hkd : '.' ∉ k) :
    navigate (.obj es) k = .obj [] ∧
    getDicValue (.obj es) (some k) false = none ∧
    getDicValue (.obj es) (some k) true = some (.obj []) ∧
    isEmptyVal (valueAt ⟨reg, rules, cfg⟩ (ns ++ ':' :: k) none false) =
      true ∧
    isEmptyVal (valueAt ⟨reg, rules, cfg⟩ (ns ++ ':' :: k) none true) =
      true ∧
    t ⟨reg, rules, cfg⟩ (ns ++ ':' :: k) none none = .str (ns ++ ':' :: k) ∧
    TResult.str (ns ++ ':' :: k) ≠ TResult.str [] ∧
    (∀ (f : Str) (rest : List Str),
      t ⟨reg, rules, cfg⟩ (ns ++ ':' :: k) none
          (some ⟨false, some (.inr (f :: rest))⟩) =
        t ⟨reg, rules, cfg⟩ f none (some ⟨false, some (.inr rest)⟩)) := by
  have hdic : dicFor ⟨reg, rules, cfg⟩ ns = .obj es := by simp [dicFor, hreg]
  have hnav : navigate (.obj es) k = .obj [] := navigate_empty_str hk hkd
  have hget0 : getDicValue (.obj es) (some k) false = none := by
    rw [getDicValue_empty_str false hk hkd]; rfl
  have hget1 : getDicValue (.obj es) (some k) true = some (.obj []) := by
    rw [getDicValue_empty_str true hk hkd]; rfl
  have hval : ∀ ro, valueAt ⟨reg, rules, cfg⟩ (ns ++ ':' :: k) none ro =
      getDicValue (.obj es) (some k) ro := by
    intro ro
    rw [valueAt_append none ro hns hkne, plural_none_query, hdic]
  refine ⟨hnav, hget0, hget1, ?_, ?_, ?_, ?_, ?_⟩
  · rw [hval false, hget0]; rfl
  · rw [hval true, hget1]; rfl
  · show tGo ⟨reg, rules, cfg⟩ none false (ns ++ ':' :: k) [] = _
    rw [tGo_nil, hval false, hget0, finishT_none]
  · intro h
    injection h with h'
    exact absurd (List.append_eq_nil.mp h').2 (List.cons_ne_nil ':' k)
  · intro f rest
    show tGo ⟨reg, rules, cfg⟩ none false (ns ++ ':' :: k) (f :: rest) = _
    rw [tGo_cons, hval false, hget0,
      if_pos (show isEmptyVal (none : Option DicValue) = true from rfl)]
    rfl

/-- Witness for C10: `ns:a` holds the empty string; the fold yields an
empty object and the resolver returns the literal key. -/
theorem c10_empty_string_treated_empty_witness :
    navigate (.obj [("a".toList, DicValue.str [])]) ("a".toList) =
      .obj [] ∧
    t emptyLeafCtx ("ns:a".toList) none none = .str ("ns:a".toList) :=
  ⟨(c10_empty_string_treated_empty [("ns".toList,
      .obj [("a".toList, .str [])])] enRules dfltConfig ("ns".toList)
      ("a".toList) _ rfl rfl (by decide) (by decide) (by decide)).1,
   (c10_empty_string_treated_empty [("ns".toList,
      .obj [("a".toList, .str [])])] enRules dfltConfig ("ns".toList)
      ("a".toList) _ rfl rfl (by decide) (by decide) (by decide)).2.2.2.2.2.1⟩

end NextTranslate
